import Mathlib

/-!
Shallow embedding of the SmartQuiz-AI MCQ core (src/utils.py and src/main.py).

The embedding works over `List Char` (the characters of the Python strings).
Regular-expression searches of the source are compiled by hand into explicit
character scanners; the character classes (`\s`, `\d`, `\w`, `[A-Da-d]`, ...)
are modelled by their ASCII extensions, matching Python on all ASCII inputs
(every concrete input appearing in the spec and in this file is ASCII).
Python `int` values are modelled as `Int`, `re` search results as `Option`,
and code that can raise an exception returns `Option` (with `none` for the
raising outcome).
-/

namespace SmartQuiz

abbrev Chars := List Char

/-- Python regex class `\s` (ASCII extension): space, tab, newline, carriage
return, vertical tab, form feed. -/
def isWsC (c : Char) : Bool :=
  c.toNat = 32 ∨ c.toNat = 9 ∨ c.toNat = 10 ∨ c.toNat = 13 ∨ c.toNat = 11 ∨ c.toNat = 12

/-- Python regex class `\d` (ASCII extension). -/
def isDigitC (c : Char) : Bool := 48 ≤ c.toNat ∧ c.toNat ≤ 57

/-- Regex class `[A-Da-d]` (used with `re.IGNORECASE` on `[A-D]` as well). -/
def isLetterAD (c : Char) : Bool :=
  (65 ≤ c.toNat ∧ c.toNat ≤ 68) ∨ (97 ≤ c.toNat ∧ c.toNat ≤ 100)

/-- Regex class `[A-D]` (case sensitive occurrences in the source). -/
def isUpperAD (c : Char) : Bool := 65 ≤ c.toNat ∧ c.toNat ≤ 68

/-- Python regex class `\w` (ASCII extension): alphanumerics and underscore. -/
def isWordC (c : Char) : Bool :=
  (48 ≤ c.toNat ∧ c.toNat ≤ 57) ∨ (65 ≤ c.toNat ∧ c.toNat ≤ 90) ∨
  (97 ≤ c.toNat ∧ c.toNat ≤ 122) ∨ c.toNat = 95

/-- Regex class `[\).:\-]`, the option-label separators. -/
def isSepC (c : Char) : Bool := c = ')' ∨ c = '.' ∨ c = ':' ∨ c = '-'

/-- Regex class `[\).]`, the numbering separators. -/
def isParenDot (c : Char) : Bool := c = ')' ∨ c = '.'

/-- Leading-whitespace removal (the front half of `str.strip()`). -/
def fStrip (l : Chars) : Chars := l.dropWhile isWsC

/-- Trailing-whitespace removal (the back half of `str.strip()`). -/
def bStrip (l : Chars) : Chars := (l.reverse.dropWhile isWsC).reverse

/-- Python `str.strip()` (ASCII whitespace). -/
def pyStrip (l : Chars) : Chars := bStrip (fStrip l)

/-- Worker for `collapseWs`; the flag records whether the previous character
was whitespace (i.e. the current run has already emitted its space). -/
def collapseWsGo : Bool → Chars → Chars
  | _, [] => []
  | inWs, c :: rest =>
    if isWsC c then
      if inWs then collapseWsGo true rest
      else ' ' :: collapseWsGo true rest
    else c :: collapseWsGo false rest

/-- Python `re.sub(r"\s+", " ", ·)`: replace each maximal whitespace run by a
single space. -/
def collapseWs (l : Chars) : Chars := collapseWsGo false l

/-- Python `re.sub(r"\s+", " ", x).strip()`, the option/question cleanup. -/
def cleanWs (l : Chars) : Chars := pyStrip (collapseWs l)

/-- Python `str.lower()` character-wise (ASCII). -/
def lowerL (l : Chars) : Chars := l.map Char.toLower

/-- Python `str.upper()` character-wise (ASCII). -/
def upperL (l : Chars) : Chars := l.map Char.toUpper

/-- Case-insensitive `List.isPrefixOf`: does `w` (already lowercase) occur at
the head of `l` once `l` is lowercased? -/
def lowStartsWith (l : Chars) (w : Chars) : Bool :=
  w.isPrefixOf (lowerL (l.take w.length))

/-- Python `a in b` substring test: `a` occurs contiguously inside `b`
(the empty pattern occurs in everything, as in Python). -/
def isSubL (pat : Chars) : Chars → Bool
  | [] => pat.isPrefixOf []
  | l@(_ :: rest) => pat.isPrefixOf l || isSubL pat rest

/-- Python `a.lower() in b.lower()` substring test. -/
def lowInfix (a b : Chars) : Bool := isSubL (lowerL a) (lowerL b)

/-- Number of leading characters of `l` satisfying `p`. -/
def cntWhile (p : Char → Bool) : Chars → Nat
  | [] => 0
  | c :: rest => if p c then cntWhile p rest + 1 else 0

/-- Position reached from `i` after skipping `\s*` (greedy). -/
def skipWs (s : Chars) (i : Nat) : Nat := i + cntWhile isWsC (s.drop i)

/-- Position reached from `i` after a greedy run of `\d`. -/
def skipDigits (s : Chars) (i : Nat) : Nat := i + cntWhile isDigitC (s.drop i)

/-- A run of variable-length regex search: does any suffix of `l` satisfy the
head predicate `p`?  Models an unanchored `re.search` returning a boolean. -/
def anySuffix (p : Chars → Bool) : Chars → Bool
  | [] => p []
  | l@(_ :: rest) => p l || anySuffix p rest

/-- `Q\s*\d+` at the head of a suffix (with `re.IGNORECASE`). -/
def qNumAt : Chars → Bool
  | [] => false
  | c :: rest =>
    (c = 'Q' ∨ c = 'q') && (match (rest.dropWhile isWsC) with
      | [] => false
      | d :: _ => isDigitC d)

/-- `\d+\.` at the head of a suffix. -/
def numDotAt : Chars → Bool
  | c :: c2 :: _ => isDigitC c && c2 = '.'
  | _ => false

/-- `[A-D][).]` at the head of a suffix (with `re.IGNORECASE`). -/
def optLblAt : Chars → Bool
  | c :: c2 :: _ => isLetterAD c && isParenDot c2
  | _ => false

/-- `Answer\s*[:\-]` at the head of a suffix (with `re.IGNORECASE`). -/
def answerSepAt (l : Chars) : Bool :=
  lowStartsWith l "answer".data &&
    (match ((l.drop 6).dropWhile isWsC) with
      | [] => false
      | c :: _ => c = ':' ∨ c = '-')

/-- Embedding of `detect_mcq` (src/utils.py, lines 48-53): length gate on the
stripped text, then an unanchored search for any of the four indicator
patterns over the whole text. -/
def detect_mcq (text : String) : Bool :=
  if text = "" ∨ (pyStrip text.data).length < 50 then false
  else
    anySuffix qNumAt text.data || anySuffix numDotAt text.data ||
    anySuffix optLblAt text.data || anySuffix answerSepAt text.data

/-! ### The MCQ parser (`parse_mcqs`, src/utils.py lines 58-240) -/

/-- The placeholder option text used for padding. -/
def NA : Chars := ['N', '/', 'A']

/-- Is position `i` a line start (target of `^` with `re.MULTILINE`)? -/
def isLineStart (s : Chars) (i : Nat) : Bool :=
  i = 0 ∨ s[i-1]? = some '\n'

/-- Does `[A-D][\).:]` match at position `p`, i.e. does the negative lookahead
of the question-header regex fail there? -/
def lookFailAD (s : Chars) (p : Nat) : Bool :=
  match s[p]?, s[p+1]? with
  | some a, some b => isUpperAD a && (b = ')' ∨ b = '.' ∨ b = ':')
  | _, _ => false

/-- Attempt of the question-header regex
`^\s*(?:Q\s*)?(\d{1,3})[\).]\s*(?![A-D][\).:])` at position `i` (the `^` being
checked by the caller); returns the end position of the match.  When the
greedy trailing `\s*` makes the lookahead fail, the engine backtracks one
whitespace character, after which the lookahead succeeds (a whitespace
character is not in `[A-D]`); with no whitespace to give back the attempt
fails. -/
def headerMatchAt (s : Chars) (i : Nat) : Option Nat :=
  let j := skipWs s i
  let j2 := match s[j]? with
    | some c => if c = 'Q' then skipWs s (j+1) else j
    | none => j
  let m := cntWhile isDigitC (s.drop j2)
  if 1 ≤ m ∧ m ≤ 3 then
    match s[j2+m]? with
    | some c =>
      if isParenDot c then
        let j3 := j2 + m + 1
        let j4 := skipWs s j3
        if lookFailAD s j4 then
          if j3 < j4 then some (j4 - 1) else none
        else some j4
      else none
    | none => none
  else none

/-- `header_re.finditer`: all non-overlapping header matches, scanning left to
right and resuming after each match end.  Fuel is the remaining scan length. -/
def findHeadersGo (s : Chars) : Nat → Nat → List Nat
  | 0, _ => []
  | fuel+1, pos =>
    if s.length ≤ pos then []
    else if isLineStart s pos then
      match headerMatchAt s pos with
      | some e => pos :: findHeadersGo s fuel (max e (pos+1))
      | none => findHeadersGo s fuel (pos+1)
    else findHeadersGo s fuel (pos+1)

/-- Start positions of all question-header matches. -/
def findHeaders (s : Chars) : List Nat := findHeadersGo s (s.length+1) 0

/-- Python slice `s[a:b]`. -/
def sliceL (s : Chars) (a b : Nat) : Chars := (s.drop a).take (b - a)

/-- Python `s.find(ch, from)`: position of the first occurrence of `ch` at or
after `from`. -/
def findCharFrom (s : Chars) (i : Nat) (ch : Char) : Option Nat :=
  match (s.drop i).findIdx? (· = ch) with
  | some k => some (i + k)
  | none => none

/-- One interrogative word of `\b(what|which|who|when|where|why|how)\b`
matching at the head of `l` (case-insensitive), with a word boundary after. -/
def wordAt (l : Chars) (w : Chars) : Bool :=
  lowStartsWith l w && (match l[w.length]? with
    | some c => !(isWordC c)
    | none => true)

/-- Any of the interrogative words at the head of `l`. -/
def interrogAt (l : Chars) : Bool :=
  wordAt l "what".data || wordAt l "which".data || wordAt l "who".data ||
  wordAt l "when".data || wordAt l "where".data || wordAt l "why".data ||
  wordAt l "how".data

/-- Scan for an interrogative word preceded by a word boundary; the first
argument records whether the previous character was a non-word character. -/
def interrogScan : Bool → Chars → Bool
  | _, [] => false
  | pnw, l@(c :: rest) => (pnw && interrogAt l) || interrogScan (!(isWordC c)) rest

/-- `re.search(r"\b(what|which|who|when|where|why|how)\b", l, re.IGNORECASE)`
as a boolean. -/
def hasInterrog (l : Chars) : Bool := interrogScan true l

/-- `\b[A-D][\).:\-]\s` matching at the head of a suffix (case sensitive). -/
def optMarkerBAt : Chars → Bool
  | a :: b :: c :: _ => isUpperAD a && isSepC b && isWsC c
  | _ => false

/-- Scan for `\b[A-D][\).:\-]\s`, returning the position of the `[A-D]`. -/
def optMarkerScan : Bool → Nat → Chars → Option Nat
  | _, _, [] => none
  | pnw, i, l@(c :: rest) =>
    if pnw && optMarkerBAt l then some i
    else optMarkerScan (!(isWordC c)) (i+1) rest

/-- `re.search(r"\b[A-D][\).:\-]\s", block)`: start position of the first
match. -/
def firstOptMarkerB (l : Chars) : Option Nat := optMarkerScan true 0 l

/-- Boolean form of `firstOptMarkerB`. -/
def hasOptMarkerB (l : Chars) : Bool := (firstOptMarkerB l).isSome

/-- Build the blocks from the header start positions (src/utils.py lines
101-116): each block runs from its header to the next header (or the end),
and is kept when its (stripped) header line contains `?` or an interrogative
word, or, failing that, when the block contains an option marker. -/
def headerBlocks (s : Chars) : List Nat → List Chars
  | [] => []
  | st :: rest =>
    let endB := match rest with
      | [] => s.length
      | st2 :: _ => st2
    let block := pyStrip (sliceL s st endB)
    let hEnd := (findCharFrom s st '\n').getD endB
    let hline := pyStrip (sliceL s st hEnd)
    let keep := hline.contains '?' || hasInterrog hline || hasOptMarkerB block
    (if keep then [block] else []) ++ headerBlocks s rest

/-- Python `text.split("\n")`. -/
def splitNl (s : Chars) : List Chars := s.splitOn '\n'

/-- `re.match(r"^\s*\d+[\).]\s*", line)` of the no-header fallback (note:
unbounded digits, no `Q` prefix, no lookahead). -/
def fbHeaderLine (l : Chars) : Bool :=
  let j := cntWhile isWsC l
  let m := cntWhile isDigitC (l.drop j)
  1 ≤ m && (match l[j+m]? with | some c => isParenDot c | none => false)

/-- Group the fallback lines into blocks: a numbered line flushes the current
block and starts a new one; every line is kept. -/
def fbGroup : List Chars → List Chars → List (List Chars)
  | [], cur => if cur.isEmpty then [] else [cur.reverse]
  | l :: ls, cur =>
    if fbHeaderLine l then
      (if cur.isEmpty then [] else [cur.reverse]) ++ fbGroup ls [l]
    else fbGroup ls (l :: cur)

/-- Fallback segmentation (src/utils.py lines 85-99): non-blank lines grouped
at numbered lines, blocks re-joined with newlines. -/
def fallbackBlocks (s : Chars) : List Chars :=
  let lines := (splitNl s).filter (fun l => pyStrip l ≠ [])
  (fbGroup lines []).map (fun ls => (ls.intersperse ['\n']).flatten)

/-- `block.split("\n", 1)[0]`. -/
def takeUntilNl (l : Chars) : Chars := l.takeWhile (· ≠ '\n')

/-- `re.sub(r"^\s*(?:Q\s*)?\d{1,3}[\).]\s*", "", l)`: strip one leading
numbering token (anchored, so at most one substitution; no lookahead). -/
def stripNumbering (l : Chars) : Chars :=
  let j := skipWs l 0
  let j2 := match l[j]? with
    | some c => if c = 'Q' then skipWs l (j+1) else j
    | none => j
  let m := cntWhile isDigitC (l.drop j2)
  if 1 ≤ m ∧ m ≤ 3 then
    match l[j2+m]? with
    | some c => if isParenDot c then l.drop (skipWs l (j2+m+1)) else l
    | none => l
  else l

/-- `opt_label_re.finditer(block)`: positions of `([A-Da-d])[\).:\-]` matches
(non-overlapping, so the scan resumes two characters after a match). -/
def optLabelsGo : Nat → Chars → List Nat
  | _, [] => []
  | _, [_] => []
  | i, c :: c2 :: rest2 =>
    if isLetterAD c && isSepC c2 then i :: optLabelsGo (i+2) rest2
    else optLabelsGo (i+1) (c2 :: rest2)

/-- Positions of all option labels in a block. -/
def optLabels (l : Chars) : List Nat := optLabelsGo 0 l

/-- Start of the first `(?:Answer|Ans|Key)\s*[:\-]?` match; since the trailing
parts are optional the match start is just the first case-insensitive
occurrence of `ans` or `key`. -/
def ansMarkerGo : Nat → Chars → Option Nat
  | _, [] => none
  | i, l@(_ :: rest) =>
    if lowStartsWith l "ans".data || lowStartsWith l "key".data then some i
    else ansMarkerGo (i+1) rest

/-- `re.search(r"(?:Answer|Ans|Key)\s*[:\-]?", block, re.IGNORECASE).start()`. -/
def ansMarkerStart (l : Chars) : Option Nat := ansMarkerGo 0 l

/-- Option text of `block[start:end].strip()` followed by whitespace
collapsing and a final strip (src/utils.py lines 152-153). -/
def cleanOpt (x : Chars) : Chars := pyStrip (collapseWs (pyStrip x))

/-- Slice the option texts out of the block: each option runs from the end of
its label to the next label (or, for the last, to the answer-marker
position). -/
def buildOpts (block : Chars) (labels : List Nat) (ansPos : Nat) : List Chars :=
  match labels with
  | [] => []
  | p :: rest =>
    let e := match rest with | [] => ansPos | p2 :: _ => p2
    cleanOpt (sliceL block (p+2) e) :: buildOpts block rest ansPos

/-- Line-oriented fallback for options:
`re.match(r"^\s*([A-Da-d])[\).:\-]\s*(.*)", line)` giving `group(2).strip()`. -/
def lineOpt (l : Chars) : Option Chars :=
  let j := cntWhile isWsC l
  match l[j]?, l[j+1]? with
  | some c, some c2 =>
    if isLetterAD c && isSepC c2 then
      some (pyStrip ((l.drop (j+2)).dropWhile isWsC))
    else none
  | _, _ => none

/-- Marker alternative `(?:Answer|Ans|Key)` at the head of `l`
(case-insensitive, `Answer` tried first): length of the matched marker. -/
def markerEnd (l : Chars) : Option Nat :=
  if lowStartsWith l "answer".data then some 6
  else if lowStartsWith l "ans".data then some 3
  else if lowStartsWith l "key".data then some 3
  else none

/-- Attempt of `(?:Answer|Ans|Key)\s*[:\-]?\s*([A-Da-d])\b` with the marker at
position `p`: after the marker, greedy whitespace, an optional separator and
more whitespace lead to a single candidate letter position, which must carry a
word boundary after it.  Returns the letter and the match end. -/
def ansLetterFrom (s : Chars) (p : Nat) : Option (Char × Nat) :=
  match markerEnd (s.drop p) with
  | none => none
  | some k =>
    let a := p + k
    let i1 := skipWs s a
    let i2 := match s[i1]? with
      | some c => if c = ':' ∨ c = '-' then skipWs s (i1+1) else i1
      | none => i1
    match s[i2]? with
    | some c =>
      if isLetterAD c && (match s[i2+1]? with | some d => !(isWordC d) | none => true) then
        some (c, i2+1)
      else none
    | none => none

/-- `ans_letter_re.finditer(block)`: all matched letters in scan order. -/
def ansLettersGo (s : Chars) : Nat → Nat → List Char
  | 0, _ => []
  | fuel+1, pos =>
    if s.length ≤ pos then []
    else match ansLetterFrom s pos with
      | some (c, e) => c :: ansLettersGo s fuel (max e (pos+1))
      | none => ansLettersGo s fuel (pos+1)

/-- All letters matched by the answer-letter regex in a block. -/
def ansLetters (s : Chars) : List Char := ansLettersGo s (s.length+1) 0

/-- Attempt of `(?:Answer|Ans|Key)\s*[:\-]?\s*(.+)` (with `re.DOTALL`) with
the marker at position `p`.  The capture group is the rest of the block after
the greedy whitespace/separator run; when that run reaches the end of the
block the engine backtracks, leaving the last character for the group.  A
marker ending exactly at the end of the block fails, except that a trailing
`Answer` falls back to the `Ans` alternative, capturing `wer`. -/
def ansTextFrom (s : Chars) (p : Nat) : Option Chars :=
  match markerEnd (s.drop p) with
  | none => none
  | some k =>
    let a := p + k
    if a < s.length then
      let i1 := skipWs s a
      let i2 := match s[i1]? with
        | some c => if c = ':' ∨ c = '-' then skipWs s (i1+1) else i1
        | none => i1
      some (if i2 < s.length then s.drop i2 else s.drop (s.length - 1))
    else
      if lowStartsWith (s.drop p) "answer".data ∧ p + 6 = s.length then
        some (s.drop (p+3))
      else none

/-- `ans_text_re.search(block)`: capture group of the first match. -/
def ansTextGo (s : Chars) : Nat → Nat → Option Chars
  | 0, _ => none
  | fuel+1, pos =>
    if s.length ≤ pos then none
    else match ansTextFrom s pos with
      | some g => some g
      | none => ansTextGo s fuel (pos+1)

/-- Raw textual answer: group 1 of the first `ans_text_re` match. -/
def ansTextRaw (s : Chars) : Option Chars := ansTextGo s (s.length+1) 0

/-- First match position of `(?:Here are|Here is|Here\x27s)` (IGNORECASE). -/
def hereFindGo : Nat → Chars → Option Nat
  | _, [] => none
  | i, l@(_ :: rest) =>
    if lowStartsWith l "here are".data || lowStartsWith l "here is".data ||
       lowStartsWith l ("here".data ++ [Char.ofNat 39] ++ "s".data) then some i
    else hereFindGo (i+1) rest

/-- Position where the textual answer is cut. -/
def hereFind (l : Chars) : Option Nat := hereFindGo 0 l

/-- Post-processing of the raw textual answer (src/utils.py lines 186-189):
strip, cut before any `Here are` marker and strip again, collapse
whitespace. -/
def mkAnsText (g : Chars) : Chars :=
  let t := pyStrip g
  let t2 := match hereFind t with | some q => pyStrip (t.take q) | none => t
  collapseWs t2

/-- Fuzzy match of the textual answer against the options (src/utils.py lines
191-199): skip empty and placeholder options, and pick the first option whose
lowercased text contains or is contained in the lowercased answer text. -/
def findMatchIdx (t : Chars) : Nat → List Chars → Option Nat
  | _, [] => none
  | i, o :: rest =>
    if o = [] ∨ o = NA then findMatchIdx t (i+1) rest
    else if lowInfix t o || lowInfix o t then some i
    else findMatchIdx t (i+1) rest

/-- First option whose lowercased text contains `all of the above`
(src/utils.py lines 202-207). -/
def allAboveIdx : Nat → List Chars → Option Nat
  | _, [] => none
  | i, o :: rest =>
    if isSubL "all of the above".data (lowerL o) then some i
    else allAboveIdx (i+1) rest

/-- Python `enumerate`. -/
def enumF : Nat → List Chars → List (Nat × Chars)
  | _, [] => []
  | i, o :: rest => (i, o) :: enumF (i+1) rest

/-- `max(..., key=len)` keeps the first element of maximal length: a later
element replaces the current best only when strictly longer. -/
def pickLonger (a b : Nat × Chars) : Nat × Chars :=
  if b.2.length > a.2.length then b else a

/-- Longest non-placeholder option (src/utils.py lines 210-215): index and
text of the first longest option that is neither empty nor `N/A`. -/
def longestIdx (opts : List Chars) : Option (Nat × Chars) :=
  match (enumF 0 opts).filter (fun p => p.2 ≠ [] ∧ p.2 ≠ NA) with
  | [] => none
  | h :: t => some (t.foldl pickLonger h)

/-- The index found by the textual-answer stage: the capture of the first
`ans_text_re` match, post-processed and fuzzy-matched against the options. -/
def textualIdx (block : Chars) (opts : List Chars) : Option Nat :=
  match ansTextRaw block with
  | some g => findMatchIdx (mkAnsText g) 0 opts
  | none => none

/-- Answer resolution once no letter-form marker decided the answer
(src/utils.py lines 182-218): textual fuzzy match, then the
`all of the above` heuristic, then the longest non-placeholder option, then
the `A`/0 default. -/
def resolveRest (block : Chars) (opts : List Chars) : Char × Nat :=
  match textualIdx block opts with
  | some i => (Char.ofNat (65+i), i)
  | none =>
    match allAboveIdx 0 opts with
    | some i => (Char.ofNat (65+i), i)
    | none =>
      match longestIdx opts with
      | some p => (Char.ofNat (65+p.1), p.1)
      | none => ('A', 0)

/-- Full answer resolution (src/utils.py lines 169-218): the last letter-form
answer marker wins when its index is in range; otherwise the fallback chain
runs. -/
def resolveAnswer (block : Chars) (opts : List Chars) : Char × Nat :=
  match (ansLetters block).getLast? with
  | some c =>
    let L := Char.toUpper c
    let idx := L.toNat - 65
    if idx < opts.length then (L, idx) else resolveRest block opts
  | none => resolveRest block opts

/-- A parsed question record (the dict of src/utils.py lines 221-226); the
one-character `correct` string is modelled as a `Char`. -/
structure ParsedQ where
  question : String
  options : List String
  correct : Char
  correct_index : Nat
deriving DecidableEq, Repr

/-- Per-block parsing (the body of the loop at src/utils.py lines 119-226). -/
def parseBlock (block : Chars) : Option ParsedQ :=
  if block = [] ∨ (pyStrip block).length < 8 then none
  else
    let first_line := takeUntilNl block
    let qtext0 := pyStrip (stripNumbering first_line)
    let qtext := if qtext0.length < 6 then
        match firstOptMarkerB block with
        | some p => pyStrip (stripNumbering (pyStrip (block.take p)))
        | none => qtext0
      else qtext0
    let labels := optLabels block
    let opts0 : List Chars :=
      if labels.isEmpty then
        ((splitNl block).filterMap lineOpt).map (fun o => pyStrip (collapseWs o))
      else
        buildOpts block labels ((ansMarkerStart block).getD block.length)
    let opts := (opts0 ++ List.replicate (4 - opts0.length) NA).take 4
    let r := resolveAnswer block opts
    some { question := String.mk (pyStrip (collapseWs qtext)),
           options := opts.map String.mk, correct := r.1, correct_index := r.2 }

/-- Final cleanup (src/utils.py lines 228-240): drop questions shorter than 6
characters and deduplicate by the exact first-120-character prefix of the
question text, keeping first occurrences. -/
def finalFilterGo : List Chars → List ParsedQ → List ParsedQ
  | _, [] => []
  | seen, q :: rest =>
    let key := q.question.data.take 120
    if q.question.data.length < 6 then finalFilterGo seen rest
    else if seen.contains key then finalFilterGo seen rest
    else q :: finalFilterGo (key :: seen) rest

/-- Embedding of `parse_mcqs` (src/utils.py lines 58-240). -/
def parse_mcqs (text : String) : List ParsedQ :=
  if text = "" then []
  else
    let full := (text.data.map (fun c => if c = '\r' then '\n' else c)).filter (fun c => c ≠ '*')
    let headers := findHeaders full
    let blocks := if headers.isEmpty then fallbackBlocks full else headerBlocks full headers
    finalFilterGo [] (blocks.filterMap parseBlock)

/-- `parse_mcqs` as called on a possibly-`None` argument: `if not text` treats
`None` like the empty string. -/
def parse_mcqs_any : Option String → List ParsedQ
  | none => []
  | some t => parse_mcqs t

/-! ### The normalizer (`normalize_question_obj`, src/main.py lines 62-113) -/

/-- A loosely-typed Python value as it can occur in the `correct` and
`correct_index` fields of a question dict. -/
inductive PyVal where
  | vNone
  | vStr (s : String)
  | vInt (n : Int)
deriving DecidableEq, Repr

/-- A loosely-shaped question dict as consumed by the normalizer.  Option
entries may be `None` (`none` here) or strings; for `correct`, `none` models
an absent key while `some .vNone` models an explicit `None` value (the two
behave differently at src/main.py line 112).  For `correct_index` an absent
key and `None` are indistinguishable, so a single `vNone` covers both. -/
structure LooseQ where
  question : String
  options : List (Option String)
  correct : Option PyVal
  correct_index : PyVal
deriving DecidableEq, Repr

/-- Digits to number, most significant first. -/
def natOfDigits : Chars → Nat → Nat
  | [], acc => acc
  | c :: rest, acc => natOfDigits rest (acc * 10 + (c.toNat - 48))

/-- Python `int(s)` on a string: optional surrounding whitespace, an optional
sign, then decimal digits; anything else raises (`none`). -/
def pyIntParse (s : String) : Option Int :=
  match pyStrip s.data with
  | [] => none
  | c :: rest =>
    let ds := if c = '-' ∨ c = '+' then rest else c :: rest
    if ds ≠ [] ∧ ds.all isDigitC then
      some (if c = '-' then -(natOfDigits ds 0 : Int) else (natOfDigits ds 0 : Int))
    else none

/-- Python `re.sub(r"\s+", " ", x).strip()` as used on option entries. -/
def cleanEntry (x : String) : String := String.mk (cleanWs x.data)

/-- Fuzzy match of a free-text `correct` value against the options
(src/main.py lines 100-104): first option whose lowercased text contains or
is contained in the lowercased answer text; no option is skipped. -/
def fuzzyGo (t : Chars) : Nat → List String → Option Nat
  | _, [] => none
  | i, o :: rest =>
    if lowInfix t o.data || lowInfix o.data t then some i
    else fuzzyGo t (i+1) rest

/-- `max(0, min(corr_idx, 3))`. -/
def clampIdx (n : Int) : Int := max 0 (min n 3)

/-- Option cleanup and padding of the normalizer (src/main.py lines 64-68):
each entry is `(o or "")` whitespace-collapsed and stripped, the list padded
with `N/A` to four entries and truncated to four. -/
def normOpts (q : LooseQ) : List String :=
  (q.options.map (fun o => cleanEntry (o.getD "")) ++
    List.replicate (4 - q.options.length) "N/A").take 4

/-- Explicit-index resolution of the normalizer (src/main.py lines 74-81):
parse `correct_index` with `int(...)` when present (`none` when that raises),
then reset out-of-range values to 0. -/
def normCi1 (q : LooseQ) : Option Int :=
  match (match q.correct_index with
         | .vNone => none
         | .vInt n => some n
         | .vStr s => pyIntParse s) with
  | none => none
  | some n => some (if n < 0 ∨ ((normOpts q).length : Int) ≤ n then 0 else n)

/-- Letter resolution of the normalizer (src/main.py lines 84-92): when
`correct` is a non-empty string, the first `[A-Da-d]` occurrence overrides
any previously resolved index. -/
def normCi2 (q : LooseQ) : Option Int :=
  match q.correct.getD PyVal.vNone with
  | .vStr s =>
    if s ≠ "" then
      match s.data.find? isLetterAD with
      | some c => some (((Char.toUpper c).toNat : Int) - 65)
      | none => normCi1 q
    else normCi1 q
  | _ => normCi1 q

/-- Free-text inference of the normalizer (src/main.py lines 95-108): when no
index is resolved yet, fuzzy-match a multi-character `correct` string against
the options, defaulting to 0. -/
def normCi3 (q : LooseQ) : Int :=
  match normCi2 q with
  | some n => n
  | none =>
    match q.correct.getD PyVal.vNone with
    | .vStr s =>
      if s ≠ "" ∧ 1 < (pyStrip s.data).length then
        match fuzzyGo (pyStrip s.data) 0 (normOpts q) with
        | some i => (i : Int)
        | none => 0
      else 0
    | _ => 0

/-- The final clamped index of the normalizer (src/main.py line 110). -/
def normCiF (q : LooseQ) : Int := clampIdx (normCi3 q)

/-- Embedding of `normalize_question_obj` (src/main.py lines 62-113).  The
result is `none` exactly when the Python function raises: at line 112,
`q.get("correct", chr(65 + corr_idx)).upper()` calls `.upper()` on the stored
`correct` value whenever the key is present, which raises `AttributeError`
for `None` or a number. -/
def normalize_question_obj (q : LooseQ) : Option LooseQ :=
  match q.correct with
  | none =>
    some { question := q.question, options := (normOpts q).map some,
           correct := some (.vStr (String.mk (upperL [Char.ofNat (65 + (normCiF q).toNat)]))),
           correct_index := .vInt (normCiF q) }
  | some (.vStr s) =>
    some { question := q.question, options := (normOpts q).map some,
           correct := some (.vStr (String.mk (upperL s.data))),
           correct_index := .vInt (normCiF q) }
  | some _ => none

/-- No two adjacent whitespace characters (the collapsed-run invariant). -/
def NoWW (l : Chars) : Prop :=
  List.Chain' (fun a b => ¬(isWsC a = true ∧ isWsC b = true)) l

/-- Every whitespace character is a plain space. -/
def WsSpace (l : Chars) : Prop := ∀ c ∈ l, isWsC c = true → c = ' '

/-! ### The format detector as the specification describes it -/

/-- Separator after a marker word, as the spec reading of `followed by a
separator`: a colon, a dash, or whitespace. -/
def sepAfter (l : Chars) (k : Nat) : Bool :=
  match l[k]? with
  | some c => c = ':' ∨ c = '-' ∨ isWsC c
  | none => false

/-- Modelled from the spec: one of the structural indicators the specification
lists for `detect_mcq` — a question-number marker (`Q<digits>`,
`Question <digits>`, bare `<digits>.` or `<digits>)`), a lettered-option
marker (`[A-D]` followed by `)`, `.`, or `:`), or an answer-label marker
(`Answer`/`Ans`/`Key` followed by a separator) — matching at the head of a
suffix. -/
def claimIndicatorAt (l : Chars) : Bool :=
  (match l with | c :: d :: _ => (c = 'Q' ∨ c = 'q') && isDigitC d | _ => false) ||
  (lowStartsWith l "question ".data &&
    (match l[9]? with | some d => isDigitC d | _ => false)) ||
  (match l with | d :: c :: _ => isDigitC d && (c = '.' ∨ c = ')') | _ => false) ||
  (match l with | c :: st :: _ => isLetterAD c && (st = ')' ∨ st = '.' ∨ st = ':') | _ => false) ||
  ((lowStartsWith l "answer".data && sepAfter l 6) ||
   (lowStartsWith l "ans".data && sepAfter l 3) ||
   (lowStartsWith l "key".data && sepAfter l 3))

/-- Modelled from the spec: the detector the specification describes — return
`false` for empty text or text under the 50-character minimum, otherwise scan
the first 8000 characters for any structural indicator. -/
def claim_detect_mcq (text : String) : Bool :=
  if text.data.length = 0 ∨ text.data.length < 50 then false
  else anySuffix claimIndicatorAt (text.data.take 8000)

/-! ### Concrete blocks used by the claim-C4 analysis -/

/-- The single block segmented out of the claim-C4 counterexample input (the
whole text, which carries no surrounding whitespace). -/
def c4block : Chars :=
  "1. Which planet is largest?\nA) Mars\nB) Jupiter maybe\nC) Venus\nD) Io".data

/-- The four padded options extracted from `c4block`. -/
def c4opts : List Chars :=
  ["Mars".data, "Jupiter maybe".data, "Venus".data, "Io".data]

/-- An all-placeholder option list: a block with no option labels at all is
padded to four `N/A` entries. -/
def c4optsNA : List Chars := [NA, NA, NA, NA]

/-- A block with no answer marker and no option labels, used to witness the
all-placeholder default of the answer-resolution chain. -/
def c4blockNA : Chars := "1. What is the meaning of it all?".data

/-! ## Supporting lemmas -/

theorem charToNat_ofNat {n : Nat} (h : n < 55296) : (Char.ofNat n).toNat = n := by
  have hv : n.isValidChar := Or.inl h
  simp only [Char.ofNat, hv, dif_pos]
  rfl

theorem toUpper_toNat_of_letter {c : Char} (h : isLetterAD c = true) :
    65 ≤ c.toUpper.toNat ∧ c.toUpper.toNat ≤ 68 := by
  simp only [isLetterAD, decide_eq_true_eq, Bool.or_eq_true, Bool.and_eq_true] at h
  simp only [Char.toUpper]
  split
  · rename_i hc
    have : c.toNat - 32 < 55296 := by omega
    rw [charToNat_ofNat this]
    omega
  · rename_i hc
    omega

theorem toUpper_not_lower (c : Char) : ¬(97 ≤ c.toUpper.toNat ∧ c.toUpper.toNat ≤ 122) := by
  simp only [Char.toUpper]
  split
  · rename_i hc
    have hlt : c.toNat - 32 < 55296 := by omega
    rw [charToNat_ofNat hlt]
    omega
  · rename_i hc
    omega

theorem toUpper_idem (c : Char) : c.toUpper.toUpper = c.toUpper := by
  have h := toUpper_not_lower c
  conv_lhs => rw [Char.toUpper]
  rw [if_neg h]

theorem isLetterAD_toUpper (c : Char) : isLetterAD c.toUpper = isLetterAD c := by
  simp only [isLetterAD, Char.toUpper]
  split
  · rename_i hc
    have : c.toNat - 32 < 55296 := by omega
    rw [charToNat_ofNat this]
    simp only [decide_eq_decide]
    omega
  · rfl

theorem anySuffix_iff (p : Chars → Bool) (l : Chars) :
    anySuffix p l = true ↔ ∃ i, p (l.drop i) = true := by
  induction l with
  | nil =>
    simp only [anySuffix, List.drop_nil]
    exact ⟨fun h => ⟨0, h⟩, fun ⟨_, h⟩ => h⟩
  | cons c rest ih =>
    simp only [anySuffix, Bool.or_eq_true, ih]
    constructor
    · rintro (h | ⟨i, h⟩)
      · exact ⟨0, h⟩
      · exact ⟨i+1, h⟩
    · rintro ⟨i, h⟩
      match i with
      | 0 => exact Or.inl h
      | i+1 => exact Or.inr ⟨i, h⟩

theorem collapseWsGo_head_nonws :
    ∀ (y : Chars) (c : Char) (rest : Chars),
      collapseWsGo true y = c :: rest → isWsC c = false := by
  intro y
  induction y with
  | nil => intro c rest h; exact absurd h (by simp [collapseWsGo])
  | cons d y' ih =>
    intro c rest h
    by_cases hw : isWsC d = true
    · simp only [collapseWsGo, hw, if_true] at h
      exact ih _ _ h
    · simp only [collapseWsGo, hw, Bool.false_eq_true, if_false] at h
      injection h with h1 _
      subst h1
      simp only [Bool.not_eq_true] at hw
      exact hw

theorem collapseWsGo_good : ∀ (l : Chars) (b : Bool),
    NoWW (collapseWsGo b l) ∧ WsSpace (collapseWsGo b l) := by
  intro l
  induction l with
  | nil =>
    intro b
    constructor
    · show List.Chain' _ (collapseWsGo b [])
      cases b <;> exact List.chain'_nil
    · intro c hc
      cases b <;> exact absurd hc (by simp [collapseWsGo])
  | cons c rest ih =>
    intro b
    by_cases hw : isWsC c = true
    · cases b
      · simp only [collapseWsGo, hw, if_true, Bool.false_eq_true, if_false]
        constructor
        · refine List.chain'_cons'.mpr ⟨?_, (ih true).1⟩
          intro y hy
          cases hhd : collapseWsGo true rest with
          | nil => rw [hhd] at hy; exact absurd hy (by simp)
          | cons z zs =>
            rw [hhd] at hy
            simp only [List.head?_cons, Option.mem_def, Option.some.injEq] at hy
            subst hy
            intro hcontra
            have := collapseWsGo_head_nonws rest z zs hhd
            rw [this] at hcontra
            exact absurd hcontra.2 (by simp)
        · intro x hx hwx
          rcases List.mem_cons.mp hx with h1 | h2
          · exact h1
          · exact (ih true).2 x h2 hwx
      · simp only [collapseWsGo, hw, if_true]
        exact ih true
    · cases b <;>
      · simp only [collapseWsGo, hw, Bool.false_eq_true, if_false]
        constructor
        · refine List.chain'_cons'.mpr ⟨?_, (ih false).1⟩
          intro y _
          intro hcontra
          exact hw hcontra.1
        · intro x hx hwx
          rcases List.mem_cons.mp hx with h1 | h2
          · subst h1; exact absurd hwx hw
          · exact (ih false).2 x h2 hwx

theorem collapseWsGo_flag (l : Chars)
    (h : ∀ c rest, l = c :: rest → isWsC c = false) :
    collapseWsGo true l = collapseWsGo false l := by
  cases l with
  | nil => rfl
  | cons c rest =>
    have hc := h c rest rfl
    simp only [collapseWsGo, hc, Bool.false_eq_true, if_false]

theorem collapseWsGo_fix (l : Chars) (h1 : NoWW l) (h2 : WsSpace l) :
    collapseWsGo false l = l := by
  induction l with
  | nil => rfl
  | cons c rest ih =>
    have hrest1 : NoWW rest := (List.chain'_cons'.mp h1).2
    have hrest2 : WsSpace rest := fun x hx => h2 x (List.mem_cons_of_mem _ hx)
    by_cases hw : isWsC c = true
    · have hc : c = ' ' := h2 c (List.mem_cons_self _ _) hw
      have hhd : ∀ d rest', rest = d :: rest' → isWsC d = false := by
        intro d rest' hr
        have hmem : d ∈ rest.head? := by rw [hr]; rfl
        have := (List.chain'_cons'.mp h1).1 d hmem
        cases hq : isWsC d
        · rfl
        · exact absurd ⟨hw, hq⟩ this
      simp only [collapseWsGo, hw, if_true, Bool.false_eq_true, if_false]
      rw [collapseWsGo_flag rest hhd, ih hrest1 hrest2, hc]
    · simp only [collapseWsGo, hw, Bool.false_eq_true, if_false]
      rw [ih hrest1 hrest2]

theorem dropWhile_head_false {p : Char → Bool} :
    ∀ (l : Chars) (c : Char) (t : Chars), l.dropWhile p = c :: t → p c = false := by
  intro l
  induction l with
  | nil => intro c t h; exact absurd h (by simp)
  | cons d l' ih =>
    intro c t h
    rw [List.dropWhile_cons] at h
    split at h
    · exact ih _ _ h
    · rename_i hp
      injection h with h1 _
      subst h1
      simpa using hp

theorem dropWhile_idem {p : Char → Bool} (l : Chars) :
    (l.dropWhile p).dropWhile p = l.dropWhile p := by
  cases hd : l.dropWhile p with
  | nil => rfl
  | cons c t =>
    rw [List.dropWhile_cons, if_neg]
    rw [dropWhile_head_false l c t hd]
    simp

theorem fStrip_idem (l : Chars) : fStrip (fStrip l) = fStrip l := dropWhile_idem l

theorem bStrip_idem (l : Chars) : bStrip (bStrip l) = bStrip l := by
  unfold bStrip
  rw [List.reverse_reverse, dropWhile_idem]

theorem bStrip_cons {c : Char} (hc : isWsC c = false) (u : Chars) :
    ∃ z, bStrip (c :: u) = c :: z := by
  unfold bStrip
  rw [List.reverse_cons, List.dropWhile_append]
  split
  · rw [List.dropWhile_cons]
    rw [if_neg (by simp [hc])]
    exact ⟨[], by simp⟩
  · exact ⟨(u.reverse.dropWhile isWsC).reverse, by simp⟩

theorem fStrip_bStrip_fStrip (l : Chars) :
    fStrip (bStrip (fStrip l)) = bStrip (fStrip l) := by
  cases hd : fStrip l with
  | nil => rfl
  | cons c u =>
    have hc : isWsC c = false := dropWhile_head_false l c u hd
    rcases bStrip_cons hc u with ⟨z, hz⟩
    rw [hz]
    unfold fStrip
    rw [List.dropWhile_cons, if_neg (by simp [hc])]

theorem pyStrip_idem (l : Chars) : pyStrip (pyStrip l) = pyStrip l := by
  unfold pyStrip
  rw [fStrip_bStrip_fStrip, bStrip_idem]

theorem NoWW_reverse {l : Chars} (h : NoWW l) : NoWW l.reverse := by
  unfold NoWW at h ⊢
  rw [List.chain'_reverse]
  exact h.imp (fun a b hab hx => hab ⟨hx.2, hx.1⟩)

theorem NoWW_dropWhile {l : Chars} (h : NoWW l) : NoWW (l.dropWhile isWsC) :=
  List.Chain'.suffix h (List.dropWhile_suffix _)

theorem WsSpace_sub {l m : Chars} (h : WsSpace l) (hsub : ∀ c ∈ m, c ∈ l) :
    WsSpace m := fun c hc => h c (hsub c hc)

theorem good_pyStrip {l : Chars} (h1 : NoWW l) (h2 : WsSpace l) :
    NoWW (pyStrip l) ∧ WsSpace (pyStrip l) := by
  unfold pyStrip bStrip fStrip
  constructor
  · exact NoWW_reverse (NoWW_dropWhile (NoWW_reverse (NoWW_dropWhile h1)))
  · refine WsSpace_sub h2 ?_
    intro c hc
    simp only [List.mem_reverse] at hc
    have := (List.dropWhile_sublist (l := (l.dropWhile isWsC).reverse) isWsC).subset hc
    simp only [List.mem_reverse] at this
    exact (List.dropWhile_sublist isWsC).subset this

theorem cleanWs_good (l : Chars) : NoWW (cleanWs l) ∧ WsSpace (cleanWs l) := by
  unfold cleanWs collapseWs
  exact good_pyStrip (collapseWsGo_good l false).1 (collapseWsGo_good l false).2

theorem cleanWs_idem (l : Chars) : cleanWs (cleanWs l) = cleanWs l := by
  have hg := cleanWs_good l
  show pyStrip (collapseWs (cleanWs l)) = cleanWs l
  unfold collapseWs
  rw [collapseWsGo_fix _ hg.1 hg.2]
  show pyStrip (pyStrip (collapseWs l)) = pyStrip (collapseWs l)
  exact pyStrip_idem _

theorem cleanEntry_idem (x : String) : cleanEntry (cleanEntry x) = cleanEntry x := by
  unfold cleanEntry
  exact congrArg String.mk (cleanWs_idem x.data)

theorem padTake4_length {α : Type} (l : List α) (d : α) :
    ((l ++ List.replicate (4 - l.length) d).take 4).length = 4 := by
  simp only [List.length_take, List.length_append, List.length_replicate]
  omega

theorem normOpts_length (q : LooseQ) : (normOpts q).length = 4 := by
  unfold normOpts
  simp only [List.length_take, List.length_append, List.length_replicate, List.length_map]
  omega

theorem normOpts_mem {q : LooseQ} {x : String} (h : x ∈ normOpts q) :
    (∃ y, x = cleanEntry y) ∨ x = "N/A" := by
  unfold normOpts at h
  have h1 := List.take_subset _ _ h
  rcases List.mem_append.mp h1 with h2 | h2
  · rcases List.mem_map.mp h2 with ⟨o, _, ho⟩
    exact Or.inl ⟨_, ho.symm⟩
  · exact Or.inr (List.eq_of_mem_replicate h2)

theorem cleanEntry_fix {q : LooseQ} {x : String} (h : x ∈ normOpts q) :
    cleanEntry x = x := by
  rcases normOpts_mem h with ⟨y, hy⟩ | hy
  · rw [hy]; exact cleanEntry_idem y
  · rw [hy]; decide

theorem normOpts_output {q q' : LooseQ} (hopts : q'.options = (normOpts q).map some) :
    normOpts q' = normOpts q := by
  have hlen : (normOpts q).length = 4 := normOpts_length q
  unfold normOpts
  rw [hopts, List.map_map, List.length_map, hlen]
  have hmap : (normOpts q).map ((fun o => cleanEntry (o.getD "")) ∘ some) = normOpts q := by
    have hcg : ∀ x ∈ normOpts q, ((fun o => cleanEntry (o.getD "")) ∘ some) x = id x := by
      intro x hx
      simp only [Function.comp_apply, Option.getD_some, id_eq]
      exact cleanEntry_fix hx
    rw [List.map_congr_left hcg, List.map_id]
  rw [hmap]
  simp only [Nat.sub_self, List.replicate_zero, List.append_nil]
  exact List.take_of_length_le hlen.le

theorem clampIdx_bounds (n : Int) : 0 ≤ clampIdx n ∧ clampIdx n ≤ 3 := by
  unfold clampIdx
  omega

theorem clampIdx_idem (n : Int) : clampIdx (clampIdx n) = clampIdx n := by
  unfold clampIdx
  omega

theorem upperL_idem (l : Chars) : upperL (upperL l) = upperL l := by
  unfold upperL
  rw [List.map_map]
  exact List.map_congr_left (fun c _ => toUpper_idem c)

theorem find?_upperL (l : Chars) :
    (upperL l).find? isLetterAD = (l.find? isLetterAD).map Char.toUpper := by
  unfold upperL
  rw [List.find?_map]
  have hpred : (isLetterAD ∘ Char.toUpper) = isLetterAD := by
    funext c
    exact isLetterAD_toUpper c
  rw [hpred]

theorem toUpper_fix {c : Char} (h : ¬(97 ≤ c.toNat ∧ c.toNat ≤ 122)) :
    c.toUpper = c := by
  simp only [Char.toUpper]
  exact if_neg h

theorem string_mk_ne_empty {l : Chars} (h : l ≠ []) : String.mk l ≠ "" := by
  intro hc
  apply h
  have : (String.mk l).data = ("" : String).data := by rw [hc]
  exact this

theorem normCi1_of_output (q : LooseQ) {q' : LooseQ}
    (hidx : q'.correct_index = .vInt (normCiF q))
    (hopts : q'.options = (normOpts q).map some) :
    normCi1 q' = some (normCiF q) := by
  have hb := clampIdx_bounds (normCi3 q)
  unfold normCi1
  rw [hidx]
  dsimp only
  rw [normOpts_output hopts, normOpts_length]
  rw [if_neg]
  intro hcon
  unfold normCiF at hcon
  rcases hcon with hcon | hcon <;> omega

theorem normCiF_clamp_fix (q : LooseQ) : clampIdx (normCiF q) = normCiF q := by
  unfold normCiF
  exact clampIdx_idem _

theorem normCiF_of_output_noletter (q : LooseQ) {q' : LooseQ} (S : String)
    (hc : q'.correct = some (.vStr S))
    (hidx : q'.correct_index = .vInt (normCiF q))
    (hopts : q'.options = (normOpts q).map some)
    (hnol : S = "" ∨ S.data.find? isLetterAD = none) :
    normCiF q' = normCiF q := by
  have h1 := normCi1_of_output q hidx hopts
  have h2 : normCi2 q' = some (normCiF q) := by
    unfold normCi2
    rw [hc]
    simp only [Option.getD]
    rcases hnol with hS | hf
    · rw [hS]
      simp only [ne_eq, not_true_eq_false, if_false]
      exact h1
    · by_cases hS : S = ""
      · rw [if_neg (by simp [hS])]
        exact h1
      · rw [if_pos hS, hf]
        exact h1
  unfold normCiF normCi3
  rw [h2]
  dsimp only
  exact normCiF_clamp_fix q

theorem normCiF_of_output_letter (q : LooseQ) {q' : LooseQ} (S : String) (c : Char)
    (hc : q'.correct = some (.vStr S)) (hS : S ≠ "")
    (hf : S.data.find? isLetterAD = some c)
    (hv : ((Char.toUpper c).toNat : Int) - 65 = normCiF q) :
    normCiF q' = normCiF q := by
  have h2 : normCi2 q' = some (normCiF q) := by
    unfold normCi2
    rw [hc]
    simp only [Option.getD]
    rw [if_pos hS, hf]
    dsimp only
    rw [hv]
  unfold normCiF normCi3
  rw [h2]
  dsimp only
  exact normCiF_clamp_fix q

theorem string_eq_empty_of_data {s : String} (h : s.data = []) : s = "" := by
  cases s with
  | mk l =>
    cases h
    rfl

theorem normalize_output_assemble (q : LooseQ) (S : String)
    (hciF : normCiF { question := q.question, options := (normOpts q).map some,
                      correct := some (.vStr S), correct_index := .vInt (normCiF q) } =
            normCiF q)
    (hSfix : upperL S.data = S.data) :
    normalize_question_obj
        { question := q.question, options := (normOpts q).map some,
          correct := some (.vStr S), correct_index := .vInt (normCiF q) } =
      some { question := q.question, options := (normOpts q).map some,
             correct := some (.vStr S), correct_index := .vInt (normCiF q) } := by
  unfold normalize_question_obj
  dsimp only
  simp only [Option.some.injEq, LooseQ.mk.injEq]
  refine ⟨trivial, ?_, ?_, ?_⟩
  · rw [normOpts_output rfl]
  · rw [hSfix]
  · rw [hciF]

theorem mem_finalFilterGo {r : ParsedQ} :
    ∀ (l : List ParsedQ) (seen : List Chars), r ∈ finalFilterGo seen l → r ∈ l := by
  intro l
  induction l with
  | nil => intro seen h; exact absurd h (by simp [finalFilterGo])
  | cons q rest ih =>
    intro seen h
    simp only [finalFilterGo] at h
    split at h
    · exact List.mem_cons_of_mem _ (ih _ h)
    · split at h
      · exact List.mem_cons_of_mem _ (ih _ h)
      · rcases List.mem_cons.mp h with h1 | h2
        · exact h1 ▸ List.mem_cons_self _ _
        · exact List.mem_cons_of_mem _ (ih _ h2)

theorem pad4_length (l : List Chars) :
    ((l ++ List.replicate (4 - l.length) NA).take 4).length = 4 := by
  simp only [List.length_take, List.length_append, List.length_replicate]
  omega

theorem ansLetterFrom_letter {s : Chars} {p : Nat} {c : Char} {e : Nat}
    (h : ansLetterFrom s p = some (c, e)) : isLetterAD c = true := by
  unfold ansLetterFrom at h
  split at h
  · exact absurd h (by simp)
  · dsimp only at h
    split at h
    · rename_i c' heq
      split at h
      · rename_i hcond
        injection h with h
        injection h with h1 h2
        subst h1
        exact (Bool.and_eq_true .. ▸ hcond).1
      · exact absurd h (by simp)
    · exact absurd h (by simp)

theorem ansLettersGo_mem {s : Chars} :
    ∀ (fuel pos : Nat) {c : Char}, c ∈ ansLettersGo s fuel pos → isLetterAD c = true := by
  intro fuel
  induction fuel with
  | zero => intro pos c h; exact absurd h (by simp [ansLettersGo])
  | succ n ih =>
    intro pos c h
    simp only [ansLettersGo] at h
    split at h
    · exact absurd h (List.not_mem_nil _)
    · split at h
      · rename_i pair heq
        rcases List.mem_cons.mp h with h1 | h2
        · subst h1
          exact ansLetterFrom_letter heq
        · exact ih _ h2
      · exact ih _ h

theorem findMatchIdx_lt {t : Chars} :
    ∀ (l : List Chars) (i j : Nat), findMatchIdx t i l = some j → j < i + l.length := by
  intro l
  induction l with
  | nil => intro i j h; exact absurd h (by simp [findMatchIdx])
  | cons o rest ih =>
    intro i j h
    simp only [findMatchIdx] at h
    split at h
    · have := ih _ _ h
      simp only [List.length_cons]
      omega
    · split at h
      · injection h with h
        simp only [List.length_cons]
        omega
      · have := ih _ _ h
        simp only [List.length_cons]
        omega

theorem textualIdx_lt {b : Chars} {opts : List Chars} {i : Nat}
    (h : textualIdx b opts = some i) : i < opts.length := by
  unfold textualIdx at h
  split at h
  · simpa using findMatchIdx_lt _ _ _ h
  · exact absurd h (by simp)

theorem allAboveIdx_lt :
    ∀ (l : List Chars) (i j : Nat), allAboveIdx i l = some j → j < i + l.length := by
  intro l
  induction l with
  | nil => intro i j h; exact absurd h (by simp [allAboveIdx])
  | cons o rest ih =>
    intro i j h
    simp only [allAboveIdx] at h
    split at h
    · injection h with h
      simp only [List.length_cons]
      omega
    · have := ih _ _ h
      simp only [List.length_cons]
      omega

theorem enumF_mem_lt :
    ∀ (l : List Chars) (k : Nat) (p : Nat × Chars), p ∈ enumF k l → k ≤ p.1 ∧ p.1 < k + l.length := by
  intro l
  induction l with
  | nil => intro k p h; exact absurd h (by simp [enumF])
  | cons o rest ih =>
    intro k p h
    simp only [enumF] at h
    rcases List.mem_cons.mp h with h1 | h2
    · subst h1
      simp only [List.length_cons]
      omega
    · have := ih _ _ h2
      simp only [List.length_cons]
      omega

theorem foldl_pickLonger_mem :
    ∀ (t : List (Nat × Chars)) (h : Nat × Chars), t.foldl pickLonger h ∈ h :: t := by
  intro t
  induction t with
  | nil => intro h; simp
  | cons x rest ih =>
    intro h
    simp only [List.foldl_cons]
    have hpick : pickLonger h x = h ∨ pickLonger h x = x := by
      unfold pickLonger
      split
      · exact Or.inr rfl
      · exact Or.inl rfl
    rcases List.mem_cons.mp (ih (pickLonger h x)) with h1 | h2
    · rcases hpick with hp | hp
      · rw [h1, hp]
        exact List.mem_cons_self _ _
      · rw [h1, hp]
        exact List.mem_cons_of_mem _ (List.mem_cons_self _ _)
    · exact List.mem_cons_of_mem _ (List.mem_cons_of_mem _ h2)

theorem longestIdx_mem {opts : List Chars} {p : Nat × Chars}
    (h : longestIdx opts = some p) :
    p ∈ enumF 0 opts ∧ p.2 ≠ [] ∧ p.2 ≠ NA := by
  unfold longestIdx at h
  split at h
  · exact absurd h (by simp)
  · rename_i hd tl heq
    injection h with h
    have hmem : p ∈ hd :: tl := h ▸ foldl_pickLonger_mem tl hd
    have : p ∈ (enumF 0 opts).filter (fun q => q.2 ≠ [] ∧ q.2 ≠ NA) := heq ▸ hmem
    have := List.mem_filter.mp this
    refine ⟨this.1, ?_⟩
    have h2 := this.2
    simp only [decide_eq_true_eq] at h2
    exact h2

theorem resolveRest_inv (b : Chars) (opts : List Chars) (h4 : opts.length = 4) :
    (resolveRest b opts).2 < 4 ∧
      (resolveRest b opts).1 = Char.ofNat (65 + (resolveRest b opts).2) := by
  unfold resolveRest
  split
  · rename_i i heq
    exact ⟨h4 ▸ textualIdx_lt heq, rfl⟩
  · split
    · rename_i i heq
      have := allAboveIdx_lt _ _ _ heq
      exact ⟨by omega, rfl⟩
    · split
      · rename_i p heq
        have := (enumF_mem_lt _ _ _ (longestIdx_mem heq).1).2
        rw [h4] at this
        exact ⟨by omega, rfl⟩
      · exact ⟨by omega, by decide⟩

theorem resolveAnswer_inv (b : Chars) (opts : List Chars) (h4 : opts.length = 4) :
    (resolveAnswer b opts).2 < 4 ∧
      (resolveAnswer b opts).1 = Char.ofNat (65 + (resolveAnswer b opts).2) := by
  unfold resolveAnswer
  split
  · rename_i c heq
    have hmem : c ∈ ansLetters b := by
      rcases List.getLast?_eq_some_iff.mp heq with ⟨ys, hys⟩
      rw [hys]
      simp
    have hlet : isLetterAD c = true := ansLettersGo_mem _ _ hmem
    have hup := toUpper_toNat_of_letter hlet
    dsimp only
    split
    · rename_i hlt
      constructor
      · simpa [h4] using hlt
      · have h65 : 65 + (c.toUpper.toNat - 65) = c.toUpper.toNat := by omega
        simp only [h65]
        exact (Char.ofNat_toNat c.toUpper).symm
    · exact resolveRest_inv b opts h4
  · exact resolveRest_inv b opts h4

theorem parseBlock_inv {b : Chars} {r : ParsedQ} (h : parseBlock b = some r) :
    r.options.length = 4 ∧ r.correct_index < 4 ∧
      r.correct = Char.ofNat (65 + r.correct_index) := by
  unfold parseBlock at h
  split at h
  · exact absurd h (by simp)
  · injection h with h
    subst h
    simp only [List.length_map]
    refine ⟨pad4_length _, ?_⟩
    exact resolveAnswer_inv _ _ (pad4_length _)

theorem mem_parse_mcqs {text : String} {r : ParsedQ} (h : r ∈ parse_mcqs text) :
    ∃ b, parseBlock b = some r := by
  unfold parse_mcqs at h
  split at h
  · exact absurd h (by simp)
  · have := mem_finalFilterGo _ _ h
    rcases List.mem_filterMap.mp this with ⟨b, _, hb⟩
    exact ⟨b, hb⟩

theorem finalFilterGo_min {r : ParsedQ} :
    ∀ (l : List ParsedQ) (seen : List Chars),
      r ∈ finalFilterGo seen l → 6 ≤ r.question.data.length := by
  intro l
  induction l with
  | nil => intro seen h; exact absurd h (by simp [finalFilterGo])
  | cons q rest ih =>
    intro seen h
    simp only [finalFilterGo] at h
    split at h
    · exact ih _ h
    · rename_i hlen
      split at h
      · exact ih _ h
      · rcases List.mem_cons.mp h with h1 | h2
        · subst h1
          omega
        · exact ih _ h2

theorem finalFilterGo_key_spec :
    ∀ (l : List ParsedQ) (seen : List Chars),
      (∀ r ∈ finalFilterGo seen l, r.question.data.take 120 ∉ seen) ∧
        (finalFilterGo seen l).Pairwise
          (fun a b => a.question.data.take 120 ≠ b.question.data.take 120) := by
  intro l
  induction l with
  | nil =>
    intro seen
    refine ⟨fun r h => absurd h (by simp [finalFilterGo]), by simp [finalFilterGo]⟩
  | cons q rest ih =>
    intro seen
    simp only [finalFilterGo]
    split
    · exact ih seen
    · rename_i hlen
      split
      · exact ih seen
      · rename_i hcont
        have ihs := ih (q.question.data.take 120 :: seen)
        constructor
        · intro r hr
          rcases List.mem_cons.mp hr with h1 | h2
          · subst h1
            intro hmem
            exact hcont (List.elem_iff.mpr hmem)
          · intro hmem
            exact (ihs.1 r h2) (List.mem_cons_of_mem _ hmem)
        · refine List.pairwise_cons.mpr ⟨?_, ihs.2⟩
          intro b hb heq
          apply ihs.1 b hb
          rw [← heq]
          exact List.mem_cons_self _ _

theorem foldl_pickLonger_ge :
    ∀ (t : List (Nat × Chars)) (h : Nat × Chars), ∀ x ∈ h :: t,
      x.2.length ≤ (t.foldl pickLonger h).2.length := by
  intro t
  induction t with
  | nil =>
    intro h x hx
    rcases List.mem_cons.mp hx with h1 | h1
    · subst h1; exact le_refl _
    · exact absurd h1 (List.not_mem_nil _)
  | cons y rest ih =>
    intro h x hx
    simp only [List.foldl_cons]
    have hh : h.2.length ≤ (pickLonger h y).2.length := by
      unfold pickLonger; split <;> omega
    have hy : y.2.length ≤ (pickLonger h y).2.length := by
      unfold pickLonger; split <;> omega
    rcases List.mem_cons.mp hx with h1 | h2
    · subst h1
      exact le_trans hh (ih _ _ (List.mem_cons_self _ _))
    · rcases List.mem_cons.mp h2 with h3 | h4
      · subst h3
        exact le_trans hy (ih _ _ (List.mem_cons_self _ _))
      · exact ih (pickLonger h y) _ (List.mem_cons_of_mem _ h4)

theorem foldl_pickLonger_head :
    ∀ (t : List (Nat × Chars)) (h : Nat × Chars),
      t.foldl pickLonger h = h ∨ h.2.length < (t.foldl pickLonger h).2.length := by
  intro t
  induction t with
  | nil => intro h; exact Or.inl rfl
  | cons y rest ih =>
    intro h
    simp only [List.foldl_cons]
    by_cases hgt : y.2.length > h.2.length
    · have hseed : pickLonger h y = y := by unfold pickLonger; rw [if_pos hgt]
      rw [hseed]
      right
      have hle : y.2.length ≤ (rest.foldl pickLonger y).2.length :=
        foldl_pickLonger_ge rest y y (List.mem_cons_self _ _)
      omega
    · have hseed : pickLonger h y = h := by unfold pickLonger; rw [if_neg hgt]
      rw [hseed]
      exact ih h

theorem foldl_pickLonger_strict :
    ∀ (t : List (Nat × Chars)) (h : Nat × Chars),
      (h :: t).Pairwise (fun a b => a.1 < b.1) →
      ∀ x ∈ h :: t, x.1 < (t.foldl pickLonger h).1 →
        x.2.length < (t.foldl pickLonger h).2.length := by
  intro t
  induction t with
  | nil =>
    intro h _ x hx hlt
    simp only [List.foldl_nil] at hlt ⊢
    rcases List.mem_cons.mp hx with h1 | h1
    · subst h1; omega
    · exact absurd h1 (List.not_mem_nil _)
  | cons y rest ih =>
    intro h hpw x hx hlt
    simp only [List.foldl_cons] at hlt ⊢
    have hpwhead := List.pairwise_cons.mp hpw
    have hpwtail := hpwhead.2
    have hhy : h.1 < y.1 := hpwhead.1 y (List.mem_cons_self _ _)
    by_cases hcase : y.2.length > h.2.length
    · have hseed : pickLonger h y = y := by unfold pickLonger; rw [if_pos hcase]
      rw [hseed] at hlt ⊢
      rcases List.mem_cons.mp hx with h1 | h2
      · subst h1
        have := foldl_pickLonger_ge rest y y (List.mem_cons_self _ _)
        omega
      · exact ih y hpwtail x h2 hlt
    · have hseed : pickLonger h y = h := by unfold pickLonger; rw [if_neg hcase]
      rw [hseed] at hlt ⊢
      have hpwh : (h :: rest).Pairwise (fun a b => a.1 < b.1) := by
        refine List.pairwise_cons.mpr ⟨?_, (List.pairwise_cons.mp hpwtail).2⟩
        intro b hb
        exact hpwhead.1 b (List.mem_cons_of_mem _ hb)
      rcases List.mem_cons.mp hx with h1 | h2
      · subst h1
        exact ih x hpwh x (List.mem_cons_self _ _) hlt
      · rcases List.mem_cons.mp h2 with h3 | h4
        · subst h3
          rcases foldl_pickLonger_head rest h with hr | hr
          · rw [hr] at hlt
            omega
          · have : x.2.length ≤ h.2.length := by omega
            omega
        · exact ih h hpwh x (List.mem_cons_of_mem _ h4) hlt

theorem enumF_mem_snd :
    ∀ (l : List Chars) (k : Nat) (p : Nat × Chars), p ∈ enumF k l → p.2 ∈ l := by
  intro l
  induction l with
  | nil => intro k p h; exact absurd h (by simp [enumF])
  | cons o rest ih =>
    intro k p h
    simp only [enumF] at h
    rcases List.mem_cons.mp h with h1 | h2
    · subst h1; exact List.mem_cons_self _ _
    · exact List.mem_cons_of_mem _ (ih _ _ h2)

theorem enumF_pairwise :
    ∀ (l : List Chars) (k : Nat), (enumF k l).Pairwise (fun a b => a.1 < b.1) := by
  intro l
  induction l with
  | nil => intro k; simp [enumF]
  | cons o rest ih =>
    intro k
    simp only [enumF]
    refine List.pairwise_cons.mpr ⟨?_, ih (k+1)⟩
    intro p hp
    exact lt_of_lt_of_le (Nat.lt_succ_self k) (enumF_mem_lt _ _ _ hp).1

theorem longestIdx_spec {opts : List Chars} {i : Nat} {o : Chars}
    (h : longestIdx opts = some (i, o)) :
    (i, o) ∈ enumF 0 opts ∧ o ≠ [] ∧ o ≠ NA ∧
      ∀ j o2, (j, o2) ∈ enumF 0 opts → o2 ≠ [] → o2 ≠ NA →
        o2.length ≤ o.length ∧ (j < i → o2.length < o.length) := by
  have hmem := longestIdx_mem h
  refine ⟨hmem.1, hmem.2.1, hmem.2.2, ?_⟩
  unfold longestIdx at h
  split at h
  · exact absurd h (by simp)
  · rename_i hd tl heq
    injection h with h
    intro j o2 hj hne hnNA
    have hfil : (j, o2) ∈ (enumF 0 opts).filter (fun q => q.2 ≠ [] ∧ q.2 ≠ NA) :=
      List.mem_filter.mpr ⟨hj, by simp [hne, hnNA]⟩
    rw [heq] at hfil
    have hge := foldl_pickLonger_ge tl hd (j, o2) hfil
    rw [h] at hge
    refine ⟨hge, ?_⟩
    intro hji
    have hpw : (hd :: tl).Pairwise (fun a b => a.1 < b.1) := by
      rw [← heq]
      exact (enumF_pairwise opts 0).filter _
    have := foldl_pickLonger_strict tl hd hpw (j, o2) hfil (by rw [h]; exact hji)
    rw [h] at this
    exact this

theorem longestIdx_none_of_placeholder {opts : List Chars}
    (h : ∀ o ∈ opts, o = [] ∨ o = NA) : longestIdx opts = none := by
  unfold longestIdx
  have : (enumF 0 opts).filter (fun q => q.2 ≠ [] ∧ q.2 ≠ NA) = [] := by
    rw [List.filter_eq_nil_iff]
    intro p hp
    rcases h p.2 (enumF_mem_snd _ _ _ hp) with h1 | h1 <;> simp [h1]
  rw [this]

/-! ## Claim theorems -/

/-- Claim C3, counterpart after correction: in every list returned by
`parse_mcqs`, no two records have the same exact (case-sensitive) 120-character
question prefix — in particular no two records have identical stems — and a
later block with an already-seen key is dropped in favour of the first.
Stems that differ only in letter case are however both kept. -/
theorem parse_dedup_prefix_pairwise (text : String) :
    (parse_mcqs text).Pairwise
      (fun a b => a.question.data.take 120 ≠ b.question.data.take 120) := by
  unfold parse_mcqs
  split
  · simp
  · exact (finalFilterGo_key_spec _ _).2

/-- Claim C8, amended: every record returned by `parse_mcqs` has a question
stem of at least 6 characters (the final filter drops shorter stems); the
filter does not impose a 3-word minimum and does not drop records whose
options are entirely the `N/A` placeholder. -/
theorem parse_min_question_length (text : String) (r : ParsedQ)
    (h : r ∈ parse_mcqs text) : 6 ≤ r.question.length := by
  unfold parse_mcqs at h
  split at h
  · exact absurd h (by simp)
  · exact finalFilterGo_min _ _ h

/-- Witness for the amended claim C8 at a concrete input. -/
theorem parse_min_question_length_witness :
    (({ question := "Where is Paris?", options := ["France", "Spain", "Peru", "Chad"],
        correct := 'A', correct_index := 0 } : ParsedQ) ∈
      parse_mcqs "3. Where is Paris?\nA) France\nB) Spain\nC) Peru\nD) Chad\nAns: A") ∧
    6 ≤ ({ question := "Where is Paris?", options := ["France", "Spain", "Peru", "Chad"],
           correct := 'A', correct_index := 0 } : ParsedQ).question.length :=
  ⟨by decide,
   parse_min_question_length
     "3. Where is Paris?\nA) France\nB) Spain\nC) Peru\nD) Chad\nAns: A"
     { question := "Where is Paris?", options := ["France", "Spain", "Peru", "Chad"],
       correct := 'A', correct_index := 0 }
     (by decide)⟩

/-- Claim C1: every record returned by `parse_mcqs` has an options list of
exactly 4 strings, a `correct_index` in 0..3, a correct letter among
`A`, `B`, `C`, `D`, and the letter stays in sync with the index
(`correct_index = correct_letter - 65`), so grading by `correct_index` never
indexes out of bounds. -/
theorem parse_mcqs_record_invariants (text : String) (r : ParsedQ)
    (h : r ∈ parse_mcqs text) :
    r.options.length = 4 ∧ r.correct_index < 4 ∧
      r.correct ∈ (['A', 'B', 'C', 'D'] : List Char) ∧
      r.correct.toNat = 65 + r.correct_index := by
  rcases mem_parse_mcqs h with ⟨b, hb⟩
  rcases parseBlock_inv hb with ⟨hlen, hidx, hcorr⟩
  refine ⟨hlen, hidx, ?_, ?_⟩
  · rw [hcorr]
    interval_cases h : r.correct_index <;> decide
  · rw [hcorr, charToNat_ofNat (by omega)]

/-- Witness for claim C1 at a concrete input. -/
theorem parse_mcqs_record_invariants_witness :
    (({ question := "What is red?", options := ["Colour", "Number", "Sound", "Mood"],
        correct := 'C', correct_index := 2 } : ParsedQ) ∈
      parse_mcqs "1. What is red?\nA) Colour\nB) Number\nC) Sound\nD) Mood\nAns: C") ∧
    (({ question := "What is red?", options := ["Colour", "Number", "Sound", "Mood"],
        correct := 'C', correct_index := 2 } : ParsedQ).options.length = 4 ∧
      ({ question := "What is red?", options := ["Colour", "Number", "Sound", "Mood"],
         correct := 'C', correct_index := 2 } : ParsedQ).correct_index < 4 ∧
      ({ question := "What is red?", options := ["Colour", "Number", "Sound", "Mood"],
         correct := 'C', correct_index := 2 } : ParsedQ).correct ∈
        (['A', 'B', 'C', 'D'] : List Char) ∧
      ({ question := "What is red?", options := ["Colour", "Number", "Sound", "Mood"],
         correct := 'C', correct_index := 2 } : ParsedQ).correct.toNat =
        65 + ({ question := "What is red?", options := ["Colour", "Number", "Sound", "Mood"],
                correct := 'C', correct_index := 2 } : ParsedQ).correct_index) :=
  ⟨by decide,
   parse_mcqs_record_invariants
     "1. What is red?\nA) Colour\nB) Number\nC) Sound\nD) Mood\nAns: C"
     { question := "What is red?", options := ["Colour", "Number", "Sound", "Mood"],
       correct := 'C', correct_index := 2 }
     (by decide)⟩

/-- Claim C7: `parse_mcqs` applied to the empty string, or to a
None-equivalent input, returns the empty list; empty input is a valid input
producing an empty output, not an exceptional condition. -/
theorem parse_mcqs_empty :
    parse_mcqs_any none = [] ∧ parse_mcqs_any (some "") = [] ∧ parse_mcqs "" = [] := by
  refine ⟨rfl, ?_, ?_⟩ <;> simp [parse_mcqs_any, parse_mcqs]

/-- Claim C10: on the six-line scenario-1 input, `parse_mcqs` returns exactly
one record with stem `What is AI?`, the four option texts, correct letter `B`
and correct index 1. -/
theorem parse_scenario1 :
    parse_mcqs "1. What is AI?\nA) Art\nB) Machine intelligence\nC) Food\nD) Music\nAns: B" =
      [{ question := "What is AI?",
         options := ["Art", "Machine intelligence", "Food", "Music"],
         correct := 'B', correct_index := 1 }] := by decide

/-- Claim C2: the normalizer is idempotent: for any record on which it is
defined (it returns a record rather than raising), applying it to its own
output returns that output unchanged, so
`normalize (normalize r) = normalize r`. -/
theorem normalize_idempotent (q q' : LooseQ)
    (h : normalize_question_obj q = some q') :
    normalize_question_obj q' = some q' := by
  rcases hq : q.correct with _ | v
  · unfold normalize_question_obj at h
    rw [hq] at h
    injection h with h
    subst h
    have hb := clampIdx_bounds (normCi3 q)
    have hge : (0 : Int) ≤ normCiF q := by unfold normCiF; omega
    have hle : normCiF q ≤ 3 := by unfold normCiF; omega
    have hknat : (65 : Nat) + (normCiF q).toNat < 55296 := by omega
    have hL : (Char.ofNat (65 + (normCiF q).toNat)).toNat = 65 + (normCiF q).toNat :=
      charToNat_ofNat hknat
    have hfix : (Char.ofNat (65 + (normCiF q).toNat)).toUpper =
        Char.ofNat (65 + (normCiF q).toNat) := by
      apply toUpper_fix
      rw [hL]
      omega
    have hSdata : upperL [Char.ofNat (65 + (normCiF q).toNat)] =
        [Char.ofNat (65 + (normCiF q).toNat)] := by
      unfold upperL
      rw [List.map_cons, List.map_nil, hfix]
    have hlet : isLetterAD (Char.ofNat (65 + (normCiF q).toNat)) = true := by
      simp only [isLetterAD, hL, decide_eq_true_eq]
      omega
    have hfS : (String.mk (upperL [Char.ofNat (65 + (normCiF q).toNat)])).data.find?
        isLetterAD = some (Char.ofNat (65 + (normCiF q).toNat)) := by
      show (upperL [Char.ofNat (65 + (normCiF q).toNat)]).find? isLetterAD = _
      rw [hSdata]
      exact List.find?_cons_of_pos _ hlet
    have hSne : String.mk (upperL [Char.ofNat (65 + (normCiF q).toNat)]) ≠ "" := by
      apply string_mk_ne_empty
      rw [hSdata]
      simp
    have hval : ((Char.toUpper (Char.ofNat (65 + (normCiF q).toNat))).toNat : Int) - 65 =
        normCiF q := by
      rw [hfix, hL]
      omega
    exact normalize_output_assemble q _
      (normCiF_of_output_letter q _ (Char.ofNat (65 + (normCiF q).toNat)) rfl hSne hfS hval)
      (upperL_idem _)
  · rcases v with _ | s | n
    · unfold normalize_question_obj at h
      rw [hq] at h
      exact absurd h (by simp)
    · unfold normalize_question_obj at h
      rw [hq] at h
      injection h with h
      subst h
      by_cases hs : s = ""
      · subst hs
        refine normalize_output_assemble q _ ?_ rfl
        exact normCiF_of_output_noletter q _ rfl rfl rfl
          (Or.inl (string_eq_empty_of_data rfl))
      · rcases hf : s.data.find? isLetterAD with _ | c
        · have hfS : (String.mk (upperL s.data)).data.find? isLetterAD = none := by
            show (upperL s.data).find? isLetterAD = none
            rw [find?_upperL, hf]
            rfl
          refine normalize_output_assemble q _ ?_ (upperL_idem _)
          exact normCiF_of_output_noletter q _ rfl rfl rfl (Or.inr hfS)
        · have hlet := List.find?_some hf
          have hup := toUpper_toNat_of_letter hlet
          have h2 : normCi2 q = some (((Char.toUpper c).toNat : Int) - 65) := by
            unfold normCi2
            rw [hq]
            simp only [Option.getD]
            rw [if_pos hs, hf]
          have hvF : normCiF q = ((Char.toUpper c).toNat : Int) - 65 := by
            unfold normCiF normCi3
            rw [h2]
            dsimp only
            unfold clampIdx
            omega
          have hfS : (String.mk (upperL s.data)).data.find? isLetterAD =
              some c.toUpper := by
            show (upperL s.data).find? isLetterAD = _
            rw [find?_upperL, hf]
            rfl
          have hsd : s.data ≠ [] := fun hd => hs (string_eq_empty_of_data hd)
          have hSne : String.mk (upperL s.data) ≠ "" := by
            apply string_mk_ne_empty
            unfold upperL
            simpa using hsd
          have hval : ((Char.toUpper c.toUpper).toNat : Int) - 65 = normCiF q := by
            rw [toUpper_idem, hvF]
          refine normalize_output_assemble q _ ?_ (upperL_idem _)
          exact normCiF_of_output_letter q _ c.toUpper rfl hSne hfS hval
    · unfold normalize_question_obj at h
      rw [hq] at h
      exact absurd h (by simp)

/-- Witness for claim C2 at a concrete record. -/
theorem normalize_idempotent_witness :
    normalize_question_obj
        { question := "q", options := [some "a", some "b"], correct := some (.vStr "b"),
          correct_index := .vNone } =
      some { question := "q", options := [some "a", some "b", some "N/A", some "N/A"],
             correct := some (.vStr "B"), correct_index := .vInt 1 } ∧
    normalize_question_obj
        { question := "q", options := [some "a", some "b", some "N/A", some "N/A"],
          correct := some (.vStr "B"), correct_index := .vInt 1 } =
      some { question := "q", options := [some "a", some "b", some "N/A", some "N/A"],
             correct := some (.vStr "B"), correct_index := .vInt 1 } :=
  ⟨by decide,
   normalize_idempotent
     { question := "q", options := [some "a", some "b"], correct := some (.vStr "b"),
       correct_index := .vNone }
     { question := "q", options := [some "a", some "b", some "N/A", some "N/A"],
       correct := some (.vStr "B"), correct_index := .vInt 1 }
     (by decide)⟩

/-- Claim C6, counterexample: a 60-character text whose only indicator is the
`Key:` answer label (an indicator the claim lists) is classified `true` by
the claim but `false` by `detect_mcq`, whose answer-label pattern only knows
the word `Answer`. -/
theorem detect_mcq_spec_mismatch_cex :
    claim_detect_mcq "Key: B xxxxxxxxx xxxxxxxxxx xxxxxxxxxx xxxxxxxxxx xxxxxxxxxx" = true ∧
    detect_mcq "Key: B xxxxxxxxx xxxxxxxxxx xxxxxxxxxx xxxxxxxxxx xxxxxxxxxx" = false := by
  constructor <;> decide

/-- Claim C6, amended: `detect_mcq` returns `false` when the stripped text is
under 50 characters, and otherwise returns `true` if and only if one of the
code's four indicator patterns — `Q` then optional whitespace then a digit, a
digit immediately followed by `.`, a letter `A`-`D` (either case) immediately
followed by `)` or `.`, or `Answer` (any case) then optional whitespace then
`:` or `-` — occurs somewhere in the text (the whole text, not only a
bounded prefix). -/
theorem detect_mcq_characterization (s : String) :
    detect_mcq s = true ↔
      (50 ≤ (pyStrip s.data).length ∧
        ∃ i, qNumAt (s.data.drop i) = true ∨ numDotAt (s.data.drop i) = true ∨
          optLblAt (s.data.drop i) = true ∨ answerSepAt (s.data.drop i) = true) := by
  unfold detect_mcq
  split
  · rename_i h
    rcases h with h | h
    · subst h
      simp only [Bool.false_eq_true, false_iff, not_and]
      intro hle
      exact absurd hle (by decide)
    · simp only [Bool.false_eq_true, false_iff, not_and]
      intro hle
      omega
  · rename_i h
    push_neg at h
    simp only [Bool.or_eq_true, anySuffix_iff, h.2, true_and]
    constructor
    · rintro (((⟨i, hi⟩ | ⟨i, hi⟩) | ⟨i, hi⟩) | ⟨i, hi⟩)
      · exact ⟨i, Or.inl hi⟩
      · exact ⟨i, Or.inr (Or.inl hi)⟩
      · exact ⟨i, Or.inr (Or.inr (Or.inl hi))⟩
      · exact ⟨i, Or.inr (Or.inr (Or.inr hi))⟩
    · rintro ⟨i, (hi | hi | hi | hi)⟩
      · exact Or.inl (Or.inl (Or.inl ⟨i, hi⟩))
      · exact Or.inl (Or.inl (Or.inr ⟨i, hi⟩))
      · exact Or.inl (Or.inr ⟨i, hi⟩)
      · exact Or.inr ⟨i, hi⟩

/-- Claim C3, counterexample: two blocks whose stems differ only in letter
case are both retained by `parse_mcqs` (the deduplication key is the exact,
case-sensitive question prefix), contradicting both the no-duplicates
invariant and the first-occurrence rule of the claim. -/
theorem parse_dedup_case_sensitive_cex :
    (parse_mcqs "1. What is love?\n2. WHAT IS LOVE?\nAnswer: A").map ParsedQ.question =
      ["What is love?", "WHAT IS LOVE?"] ∧
    lowerL "What is love?".data = lowerL "WHAT IS LOVE?".data ∧
    ("What is love?" : String) ≠ "WHAT IS LOVE?" := by
  refine ⟨by decide, by decide, by decide⟩

/-- Claim C8, counterexample: the final filter of `parse_mcqs` drops neither
records whose options are entirely the `N/A` placeholder nor records whose
stem has fewer than 3 words — the one-word stem `Whatever?` with four `N/A`
options survives into the output. -/
theorem parse_filter_cex :
    (parse_mcqs "1. Whatever?\n2. What is the capital city?\nAnswer: A").map
        (fun r => (r.question, r.options)) =
      [("Whatever?", ["N/A", "N/A", "N/A", "N/A"]),
       ("What is the capital city?", ["N/A", "N/A", "N/A", "N/A"])] := by decide

/-- Claim C4, counterexample: a block with no answer marker at all (so no
letter match and no fuzzy text match) and no `all of the above` option does
not default to letter `A`/index 0 — the longest-option fallback picks
`Jupiter maybe`, giving letter `B` and index 1. -/
theorem parse_default_answer_cex :
    (parse_mcqs "1. Which planet is largest?\nA) Mars\nB) Jupiter maybe\nC) Venus\nD) Io").map
        (fun r => (r.correct, r.correct_index)) = [('B', 1)] ∧
    ansLetters c4block = [] ∧ textualIdx c4block c4opts = none ∧
    allAboveIdx 0 c4opts = none ∧
    resolveAnswer c4block c4opts = ('B', 1) := by
  refine ⟨by decide, by decide, by decide, by decide, by decide⟩

/-- Claim C4, amended: in a block where no answer marker yields a letter, the
textual-answer stage finds no fuzzy match, and no option contains
`all of the above`, the answer resolution of `parse_mcqs` picks the first
longest option that is neither empty nor the `N/A` placeholder — giving
letter `chr(65+i)` and index `i` — and defaults to letter `A` and index 0
only when every option is empty or `N/A`. -/
theorem parse_longest_option_fallback (block : Chars) (opts : List Chars)
    (h1 : ansLetters block = []) (h2 : textualIdx block opts = none)
    (h3 : allAboveIdx 0 opts = none) :
    ((∀ o ∈ opts, o = [] ∨ o = NA) → resolveAnswer block opts = ('A', 0)) ∧
    (∀ i o, longestIdx opts = some (i, o) →
      resolveAnswer block opts = (Char.ofNat (65 + i), i) ∧
        (i, o) ∈ enumF 0 opts ∧ o ≠ [] ∧ o ≠ NA ∧
        ∀ j o2, (j, o2) ∈ enumF 0 opts → o2 ≠ [] → o2 ≠ NA →
          o2.length ≤ o.length ∧ (j < i → o2.length < o.length)) := by
  have hg : (ansLetters block).getLast? = none := by rw [h1]; rfl
  have hres : resolveAnswer block opts =
      (match longestIdx opts with
       | some p => (Char.ofNat (65 + p.1), p.1)
       | none => ('A', 0)) := by
    unfold resolveAnswer
    rw [hg]
    show resolveRest block opts = _
    unfold resolveRest
    rw [h2]
    show (match allAboveIdx 0 opts with
          | some i => (Char.ofNat (65+i), i)
          | none => match longestIdx opts with
            | some p => (Char.ofNat (65+p.1), p.1)
            | none => ('A', 0)) = _
    rw [h3]
  constructor
  · intro hall
    rw [hres, longestIdx_none_of_placeholder hall]
  · intro i o hio
    have hspec := longestIdx_spec hio
    rw [hres, hio]
    exact ⟨rfl, hspec.1, hspec.2.1, hspec.2.2.1, hspec.2.2.2⟩

/-- Witness for the amended claim C4 at the concrete counterexample block. -/
theorem parse_longest_option_fallback_witness :
    (ansLetters c4block = [] ∧ textualIdx c4block c4opts = none ∧
      allAboveIdx 0 c4opts = none ∧ longestIdx c4opts = some (1, "Jupiter maybe".data)) ∧
    resolveAnswer c4block c4opts = (Char.ofNat (65 + 1), 1) :=
  ⟨⟨by decide, by decide, by decide, by decide⟩,
   ((parse_longest_option_fallback c4block c4opts (by decide) (by decide) (by decide)).2
      1 "Jupiter maybe".data (by decide)).1⟩

/-- Claim C5, counterexample: an explicit in-range `correct_index` of 0 is
not authoritative — the supplied letter `B` overrides it, and the normalizer
returns `correct_index` 1. -/
theorem normalize_letter_overrides_index_cex :
    normalize_question_obj
        { question := "q", options := [some "w", some "x", some "y", some "z"],
          correct := some (.vStr "B"), correct_index := .vInt 0 } =
      some { question := "q", options := [some "w", some "x", some "y", some "z"],
             correct := some (.vStr "B"), correct_index := .vInt 1 } := by decide

/-- Claim C5, amended: in normalization the correct letter is authoritative,
not the explicit index: whenever the record's `correct` field is a non-empty
string containing a letter `A`-`D` (either case), the first such letter
determines the output `correct_index` (its uppercase code point minus 65),
even when an in-range explicit `correct_index` is supplied; the explicit
index can decide the output only when no such letter is present. -/
theorem normalize_letter_precedence (q q' : LooseQ) (s : String) (c : Char)
    (hc : q.correct = some (.vStr s)) (hs : s ≠ "")
    (hf : s.data.find? isLetterAD = some c)
    (hn : normalize_question_obj q = some q') :
    q'.correct_index = .vInt (((Char.toUpper c).toNat : Int) - 65) := by
  have hletter : isLetterAD c = true := List.find?_some hf
  have hup := toUpper_toNat_of_letter hletter
  have h2 : normCi2 q = some (((Char.toUpper c).toNat : Int) - 65) := by
    unfold normCi2
    rw [hc]
    simp only [Option.getD, ne_eq, hs, not_false_eq_true, if_true, hf]
  have h3 : normCiF q = ((Char.toUpper c).toNat : Int) - 65 := by
    unfold normCiF normCi3
    rw [h2]
    dsimp only
    unfold clampIdx
    omega
  unfold normalize_question_obj at hn
  rw [hc] at hn
  injection hn with hn
  subst hn
  simp only [h3]

/-- Witness for the amended claim C5: the letter `B` decides the index even
though an explicit in-range index 0 was supplied. -/
theorem normalize_letter_precedence_witness :
    ({ question := "q", options := [some "w", some "x", some "y", some "z"],
       correct := some (.vStr "B"), correct_index := .vInt 1 } : LooseQ).correct_index =
      .vInt (((Char.toUpper 'B').toNat : Int) - 65) :=
  normalize_letter_precedence
    { question := "q", options := [some "w", some "x", some "y", some "z"],
      correct := some (.vStr "B"), correct_index := .vInt 0 }
    { question := "q", options := [some "w", some "x", some "y", some "z"],
      correct := some (.vStr "B"), correct_index := .vInt 1 }
    "B" 'B' rfl (by decide) (by decide) (by decide)

/-- Claim C9, amended: `parse_mcqs` is a total function returning a (possibly
empty) record list for every input string, and the normalizer returns a
record for every input record whose `correct` field is absent or a string; it
raises only when `correct` is present and not a string. -/
theorem normalize_total_on_strings (q : LooseQ)
    (h : q.correct = none ∨ ∃ s, q.correct = some (.vStr s)) :
    ∃ q', normalize_question_obj q = some q' := by
  unfold normalize_question_obj
  rcases h with h | ⟨s, h⟩ <;> rw [h] <;> exact ⟨_, rfl⟩

/-- Witness for the amended claim C9 at a concrete record. -/
theorem normalize_total_on_strings_witness :
    ∃ q', normalize_question_obj
        { question := "q", options := [some "a"], correct := some (.vStr "B"),
          correct_index := .vNone } = some q' :=
  normalize_total_on_strings
    { question := "q", options := [some "a"], correct := some (.vStr "B"),
      correct_index := .vNone }
    (Or.inr ⟨"B", rfl⟩)

/-- Claim C9, counterexample: the normalizer raises (`none` in this model) on
a record whose `correct` key is present with value `None`, and likewise for a
numeric `correct`; it is not total on all records. -/
theorem normalize_raises_on_none_cex :
    normalize_question_obj
        { question := "q", options := [some "a", some "b", some "c", some "d"],
          correct := some .vNone, correct_index := .vNone } = none ∧
    normalize_question_obj
        { question := "q", options := [some "a", some "b", some "c", some "d"],
          correct := some (.vInt 1), correct_index := .vNone } = none := by
  constructor <;> decide

end SmartQuiz
